import Mathlib

/-!
Verification of the foundation-sql execution engine against its specification.

Python strings are embedded as lists of characters (abbrev Str), Python dicts as
association lists in insertion order (updates replace in place, fresh keys append,
matching CPython dict semantics), exceptions as Except, and None-able values as
Option. Each definition is a direct translation of the corresponding function in
foundation_sql (db_drivers.py, db.py, query.py, gen.py, cache.py); the source
location is named in its doc comment.
-/

/-- Python strings, modelled as character lists. -/
abbrev Str := List Char

/-- Whitespace characters recognised by Python's str.strip / regex \s (ASCII). -/
def isPySpace (c : Char) : Bool :=
  c = ' ' || c = '\t' || c = '\n' || c = '\r' || c = '\x0b' || c = '\x0c'

/-- Python str.strip(): drop whitespace from both ends. -/
def pyStrip (s : Str) : Str :=
  ((s.dropWhile isPySpace).reverse.dropWhile isPySpace).reverse

/-- Statement splitting shared by both adapters (db_drivers.py lines 85 and 187):
Python [stmt.strip() for stmt in query.split(';') if stmt.strip()] — split the body
on every ';', strip each segment, and keep only the non-empty ones. -/
def splitStatements (query : Str) : List Str :=
  ((List.splitOn ';' query).map pyStrip).filter (fun s => !s.isEmpty)

/-- Backend semantics of executing one statement with the (fixed) bound-parameter
set: whether the cursor reports returning rows, the rows it would yield, and its
affected-row count (SQLAlchemy CursorResult.returns_rows / iteration / rowcount).
The row type ρ is abstract. -/
structure StmtSem (ρ : Type) where
  returns_rows : Bool
  rows : List ρ
  rowcount : Int
  deriving DecidableEq, Repr

/-- Observable outcome of an adapter run: a row set or an affected-row count. -/
inductive RunResult (ρ : Type) where
  | rowsR (rows : List ρ)
  | countR (n : Int)
  deriving DecidableEq, Repr

/-- The statement loop of SQLAlchemyAdapter.run_sql (db_drivers.py lines 86-95):
accumulate total_rows += result.rowcount for every statement, and remember the
last result whose returns_rows is true. -/
def runLoop (exec : Str → StmtSem ρ) :
    List Str → Int → Option (StmtSem ρ) → Int × Option (StmtSem ρ)
  | [], total, last => (total, last)
  | s :: rest, total, last =>
      let r := exec s
      runLoop exec rest (total + r.rowcount) (if r.returns_rows then some r else last)

/-- SQLAlchemyAdapter.run_sql (db_drivers.py lines 68-108), after template
rendering: split the rendered body, execute each statement in textual order with
the same bound parameters (the abstract exec), then return the rows of the last
row-returning result if any, otherwise the summed rowcount. Rendering and the
engine/transaction plumbing are not observable here and are abstracted into exec. -/
def run_sql (exec : Str → StmtSem ρ) (query : Str) : RunResult ρ :=
  let res := runLoop exec (splitStatements query) 0 none
  match res.2 with
  | some r => if r.returns_rows then RunResult.rowsR r.rows else RunResult.countR res.1
  | none => RunResult.countR res.1

theorem runLoop_fst (exec : Str → StmtSem ρ) :
    ∀ (l : List Str) (total : Int) (last : Option (StmtSem ρ)),
      (runLoop exec l total last).1 = total + ((l.map (fun s => (exec s).rowcount)).sum) := by
  intro l
  induction l with
  | nil => intro total last; simp [runLoop]
  | cons s rest ih =>
      intro total last
      simp only [runLoop, ih, List.map_cons, List.sum_cons]
      ring

theorem runLoop_snd (exec : Str → StmtSem ρ) :
    ∀ (l : List Str) (total : Int) (last : Option (StmtSem ρ)),
      (runLoop exec l total last).2 =
        match l.reverse.find? (fun s => (exec s).returns_rows) with
        | some s => some (exec s)
        | none => last := by
  intro l
  induction l with
  | nil => intro total last; simp [runLoop]
  | cons s rest ih =>
      intro total last
      simp only [runLoop, ih, List.reverse_cons, List.find?_append]
      cases hr : rest.reverse.find? (fun s => (exec s).returns_rows) with
      | some x => simp
      | none =>
          by_cases hs : (exec s).returns_rows
          · simp [hs, List.find?]
          · simp [hs, List.find?]

theorem run_sql_characterization (exec : Str → StmtSem ρ) (query : Str) :
    run_sql exec query =
      match (splitStatements query).reverse.find? (fun s => (exec s).returns_rows) with
      | some s => RunResult.rowsR (exec s).rows
      | none =>
          RunResult.countR (((splitStatements query).map (fun s => (exec s).rowcount)).sum) := by
  simp only [run_sql]
  rw [runLoop_fst, runLoop_snd]
  cases hf : (splitStatements query).reverse.find? (fun s => (exec s).returns_rows) with
  | some s =>
      have hs := List.find?_some (p := fun s => (exec s).returns_rows) hf
      simp only [] at hs
      simp [hs]
  | none => simp

/-- C1: SQLAlchemyAdapter.run_sql splits the rendered body on ';', discards
empty/whitespace-only segments, executes the remaining statements in textual
order with the same bound-parameter set (the single exec function), and returns
the rows of the last statement reporting returns_rows if any statement does,
otherwise the sum of every statement's affected-row count. -/
theorem C1_run_sql_split_order_and_result (exec : Str → StmtSem ρ) (query : Str) :
    run_sql exec query =
      match (splitStatements query).reverse.find? (fun s => (exec s).returns_rows) with
      | some s => RunResult.rowsR (exec s).rows
      | none =>
          RunResult.countR (((splitStatements query).map (fun s => (exec s).rowcount)).sum) :=
  run_sql_characterization exec query

/-- Python substring check "'{{' in template" (db_drivers.py line 156). -/
def containsTemplateVar : Str → Bool
  | [] => false
  | '{' :: '{' :: _ => true
  | _ :: rest => containsTemplateVar rest

/-- Textual row-returning test of AsyncpgAdapter
(db_drivers.py lines 159 and 195): statement.strip().lower().startswith("select"). -/
def isSelect (s : Str) : Bool :=
  List.isPrefixOf ("select".toList) ((pyStrip s).map Char.toLower)

/-- The statement loop of AsyncpgAdapter.run_sql_async (db_drivers.py lines
187-217): a select statement is fetched (its rows become last_result and their
count is added to total_rows), any other statement is executed and the rowcount
parsed from its status is added. The schema-operation branch (lines 203-213)
differs only in whether bound parameters are passed to the backend, which the
abstract per-statement semantics exec already hides. -/
def asyncLoop (exec : Str → StmtSem ρ) :
    List Str → Int → Option (List ρ) → Int × Option (List ρ)
  | [], total, last => (total, last)
  | s :: rest, total, last =>
      if isSelect s then
        asyncLoop exec rest (total + ((exec s).rows).length) (some (exec s).rows)
      else
        asyncLoop exec rest (total + (exec s).rowcount) last

/-- AsyncpgAdapter.run_sql_async (db_drivers.py lines 148-234). Rendering is
abstracted as the identity (parameter substitution is invisible to the abstract
per-statement semantics exec, and on the fast path the template is executed
verbatim anyway). The fast path for a template without substitution markers
(lines 156-165) fetches the whole template if it starts with select, else
executes the whole script: asyncpg's execute runs the ';'-separated statements in
order and reports the status of the last one, whose parsed rowcount is
(exec last).rowcount; on an empty script the status parse falls back to 0. -/
def run_sql_async (exec : Str → StmtSem ρ) (template : Str) : RunResult ρ :=
  if !containsTemplateVar template then
    if isSelect template then RunResult.rowsR (exec template).rows
    else
      RunResult.countR
        (match (splitStatements template).getLast? with
         | some s => (exec s).rowcount
         | none => 0)
  else
    let res := asyncLoop exec (splitStatements template) 0 none
    match res.2 with
    | some rows => RunResult.rowsR rows
    | none => RunResult.countR res.1

theorem asyncLoop_fst (exec : Str → StmtSem ρ) :
    ∀ (l : List Str) (total : Int) (last : Option (List ρ)),
      (asyncLoop exec l total last).1 =
        total + ((l.map (fun s =>
          if isSelect s then ((exec s).rows.length : Int) else (exec s).rowcount)).sum) := by
  intro l
  induction l with
  | nil => intro total last; simp [asyncLoop]
  | cons s rest ih =>
      intro total last
      by_cases hs : isSelect s
      · simp only [asyncLoop, if_pos hs, ih, List.map_cons, List.sum_cons]
        ring
      · simp only [asyncLoop, if_neg hs, ih, List.map_cons, List.sum_cons]
        ring

theorem asyncLoop_snd (exec : Str → StmtSem ρ) :
    ∀ (l : List Str) (total : Int) (last : Option (List ρ)),
      (asyncLoop exec l total last).2 =
        match l.reverse.find? isSelect with
        | some s => some (exec s).rows
        | none => last := by
  intro l
  induction l with
  | nil => intro total last; simp [asyncLoop]
  | cons s rest ih =>
      intro total last
      by_cases hs : isSelect s
      · simp only [asyncLoop, if_pos hs, ih, List.reverse_cons, List.find?_append]
        cases hr : rest.reverse.find? isSelect with
        | some x => simp
        | none => simp [List.find?, hs]
      · simp only [asyncLoop, if_neg hs, ih, List.reverse_cons, List.find?_append]
        cases hr : rest.reverse.find? isSelect with
        | some x => simp
        | none => simp [List.find?, hs]

theorem find?_congrPred (p q : α → Bool) :
    ∀ (l : List α), (∀ x ∈ l, p x = q x) → l.find? p = l.find? q := by
  intro l
  induction l with
  | nil => intro h; simp
  | cons a rest ih =>
      intro h
      have ha := h a (by simp)
      by_cases hp : p a
      · rw [List.find?_cons_of_pos _ hp, List.find?_cons_of_pos _ (ha ▸ hp)]
      · rw [List.find?_cons_of_neg _ hp, List.find?_cons_of_neg _ (ha ▸ hp)]
        exact ih (fun x hx => h x (by simp [hx]))

def cexExec : Str → StmtSem Nat := fun _ => ⟨true, [0], 1⟩

/-- C6 counterexample: a single-statement body whose execution reports returning
rows (as an INSERT ... RETURNING does) although its text does not start with
"select". The synchronous adapter surfaces the row set; the asynchronous adapter
executes it as a non-select and surfaces the rowcount: the two externally
observable outcomes differ. -/
theorem C6_counterexample :
    run_sql cexExec ("INSERT INTO t VALUES (\x7b\x7b x \x7d\x7d) RETURNING a".toList) =
      RunResult.rowsR [0]
    ∧ run_sql_async cexExec ("INSERT INTO t VALUES (\x7b\x7b x \x7d\x7d) RETURNING a".toList) =
      RunResult.countR 1
    ∧ RunResult.rowsR [0] ≠ (RunResult.countR 1 : RunResult Nat) := by
  refine ⟨by decide, by decide, by decide⟩

/-- C6 (amended): the two adapters do produce the same externally observable
outcome — same statement order, same row-set selection, same summed rowcount when
no statement returns rows — provided the backend's returns-rows report coincides
with the async adapter's textual starts-with-select test on every statement of
the body, and the no-substitution fast path is only taken on single-statement
bodies. -/
theorem C6_sync_async_agreement (exec : Str → StmtSem ρ) (q : Str)
    (hdet : ∀ s ∈ splitStatements q, (exec s).returns_rows = isSelect s)
    (hfast : containsTemplateVar q = false → splitStatements q = [q]) :
    run_sql_async exec q = run_sql exec q := by
  rw [run_sql_characterization]
  cases hc : containsTemplateVar q with
  | false =>
      have hsplit := hfast hc
      simp only [run_sql_async, hc, Bool.not_false, if_pos rfl]
      rw [hsplit]
      have hq : (exec q).returns_rows = isSelect q := hdet q (by rw [hsplit]; simp)
      by_cases hsel : isSelect q
      · simp [hsel, List.find?, hq]
      · simp [hsel, List.find?, hq, eq_false_intro hsel]
  | true =>
      simp only [run_sql_async, hc, Bool.not_true]
      simp only [Bool.false_eq_true, if_false]
      rw [asyncLoop_fst, asyncLoop_snd]
      have hcongr : (splitStatements q).reverse.find? isSelect =
          (splitStatements q).reverse.find? (fun s => (exec s).returns_rows) := by
        apply find?_congrPred
        intro x hx
        exact (hdet x (by simpa using hx)).symm
      rw [hcongr]
      cases hf : (splitStatements q).reverse.find? (fun s => (exec s).returns_rows) with
      | some s => simp
      | none =>
          simp only []
          have hnone : ∀ x ∈ (splitStatements q).reverse,
              ¬((fun s => (exec s).returns_rows) x = true) := List.find?_eq_none.mp hf
          have hmap : (splitStatements q).map (fun s =>
              if isSelect s then ((exec s).rows.length : Int) else (exec s).rowcount) =
              (splitStatements q).map (fun s => (exec s).rowcount) := by
        -- every statement is a non-select, so the select summand never occurs
            apply List.map_congr_left
            intro x hx
            have hxr : ¬((exec x).returns_rows = true) := hnone x (by simpa using hx)
            have : isSelect x = false := by
              have := hdet x hx
              rw [this] at hxr
              simpa using hxr
            simp [this]
          rw [hmap]
          simp

/-- Database cell values as seen by unflatten_dict (db.py): SQL null, scalars, and
the nested dicts that unflattening itself builds. The only operation the source
performs on a value is the "v is None" test. -/
inductive Value where
  | vnull
  | vint (n : Int)
  | vstr (s : Str)
  | vdict (d : List (Str × Value))

/-- Column keys (dotted paths). -/
abbrev Key := Str

/-- Python dicts of row data, in insertion order. -/
abbrev Flat := List (Key × Value)

instance : Inhabited Value := ⟨Value.vnull⟩

/-- Python "v is None". -/
def isNull : Value → Bool
  | .vnull => true
  | _ => false

/-- Python key.split(NESTED_SPLITTER, 1) for NESTED_SPLITTER = "." (db.py line
327): some (before, after) at the first '.', none when the key has no '.' (in
which case "NESTED_SPLITTER in key" is false). -/
def breakDot : Key → Option (Key × Key)
  | [] => none
  | c :: cs =>
      if c = '.' then some ([], cs)
      else match breakDot cs with
           | some (p, r) => some (c :: p, r)
           | none => none

/-- Python "NESTED_SPLITTER in key" (db.py lines 326 and 339). -/
def hasSep (k : Key) : Bool := (breakDot k).isSome

/-- CPython dict assignment d[k] = v: replace in place if the key is present,
append otherwise. The dicts this development builds always have unique keys, so
replacing the first occurrence is exact. -/
def dictUpdate : Flat → Key → Value → Flat
  | [], k, v => [(k, v)]
  | (k', v') :: d, k, v => if k' = k then (k, v) :: d else (k', v') :: dictUpdate d k v

/-- Python dict lookup (first occurrence; keys are unique). -/
def dictGet : Flat → Key → Option Value
  | [], _ => none
  | (k', v') :: d, k => if k' = k then some v' else dictGet d k

/-- The grouped_keys insertion of db.py lines 327-330: create the prefix group if
absent, then grouped_keys[p][r] = value. -/
def groupInsert : List (Key × Flat) → Key → Key → Value → List (Key × Flat)
  | [], p, r, v => [(p, [(r, v)])]
  | (q, m) :: g, p, r, v =>
      if q = p then (q, dictUpdate m r v) :: g else (q, m) :: groupInsert g p r v

/-- The key-categorisation loop of unflatten_dict (db.py lines 321-332): walk the
items in order; a key containing the separator is split at its first occurrence
and filed under its prefix group, any other key goes to direct_keys. -/
def categorizeAux : Flat → List (Key × Flat) → Flat → List (Key × Flat) × Flat
  | [], g, d => (g, d)
  | (k, v) :: rest, g, d =>
      match breakDot k with
      | some (p, r) => categorizeAux rest (groupInsert g p r v) d
      | none => categorizeAux rest g (dictUpdate d k v)

/-- Key categorisation starting from empty grouped_keys and direct_keys. -/
def categorize (flat : Flat) : List (Key × Flat) × Flat := categorizeAux flat [] []

/-- Termination measure: total length of the keys of a flat dict. -/
def keyMeasure (d : Flat) : Nat := (d.map (fun kv => kv.1.length)).sum

/-- Termination measure for the group list. -/
def groupsMeasure (g : List (Key × Flat)) : Nat := (g.map (fun pm => 1 + keyMeasure pm.2)).sum

theorem keyMeasure_dictUpdate (d : Flat) (k : Key) (v : Value) :
    keyMeasure (dictUpdate d k v) ≤ keyMeasure d + k.length := by
  induction d with
  | nil => simp [dictUpdate, keyMeasure]
  | cons kv d ih =>
      obtain ⟨k', v'⟩ := kv
      by_cases h : k' = k
      · subst h
        simp [dictUpdate, keyMeasure]
      · simp only [dictUpdate, if_neg h, keyMeasure, List.map_cons, List.sum_cons]
        have := ih
        simp only [keyMeasure] at this
        omega

theorem breakDot_length (k p r : Key) (h : breakDot k = some (p, r)) :
    k.length = p.length + 1 + r.length := by
  induction k generalizing p r with
  | nil => simp [breakDot] at h
  | cons c cs ih =>
      by_cases hc : c = '.'
      · simp [breakDot, hc] at h
        obtain ⟨hp, hr⟩ := h
        subst hp; subst hr
        simp
        omega
      · simp only [breakDot, if_neg hc] at h
        cases hbd : breakDot cs with
        | none => simp [hbd] at h
        | some pr =>
            obtain ⟨p', r'⟩ := pr
            rw [hbd] at h
            simp only [Option.some.injEq, Prod.mk.injEq] at h
            obtain ⟨hp, hr⟩ := h
            subst hp; subst hr
            have := ih p' r' hbd
            simp only [List.length_cons]
            omega

theorem groupsMeasure_groupInsert (g : List (Key × Flat)) (p r : Key) (v : Value) :
    groupsMeasure (groupInsert g p r v) ≤ groupsMeasure g + 1 + r.length := by
  induction g with
  | nil => simp [groupInsert, groupsMeasure, keyMeasure]
  | cons qm g ih =>
      obtain ⟨q, m⟩ := qm
      by_cases h : q = p
      · simp only [groupInsert, if_pos h, groupsMeasure, List.map_cons, List.sum_cons]
        have := keyMeasure_dictUpdate m r v
        omega
      · simp only [groupInsert, if_neg h, groupsMeasure, List.map_cons, List.sum_cons]
        have := ih
        simp only [groupsMeasure] at this
        omega

theorem categorizeAux_groupsMeasure (l : Flat) :
    ∀ g d, groupsMeasure (categorizeAux l g d).1 ≤ groupsMeasure g + keyMeasure l := by
  induction l with
  | nil => intro g d; simp [categorizeAux]
  | cons kv rest ih =>
      intro g d
      obtain ⟨k, v⟩ := kv
      simp only [categorizeAux]
      cases hbd : breakDot k with
      | some pr =>
          obtain ⟨p, r⟩ := pr
          have h1 := ih (groupInsert g p r v) d
          have h2 := groupsMeasure_groupInsert g p r v
          have h3 := breakDot_length k p r hbd
          simp only [keyMeasure, List.map_cons, List.sum_cons]
          simp only [keyMeasure] at h1 ⊢
          omega
      | none =>
          have h1 := ih g (dictUpdate d k v)
          simp only [keyMeasure, List.map_cons, List.sum_cons]
          simp only [keyMeasure] at h1 ⊢
          omega

theorem categorize_groupsMeasure (flat : Flat) :
    groupsMeasure (categorize flat).1 ≤ keyMeasure flat := by
  have := categorizeAux_groupsMeasure flat [] []
  simpa [categorize, groupsMeasure] using this

mutual
/-- unflatten_dict (db.py lines 310-356): categorise the keys, start the result
from the direct keys, then process each prefix group in first-appearance order.
The isinstance(nested_result, dict) guard of line 347 is always true because
unflatten_dict returns a dict, so the all-None check is applied unconditionally
in the nested branch, exactly as in the source. -/
def unflatten_dict (flat : Flat) : Flat :=
  applyGroups (categorize flat).1 (categorize flat).2
termination_by (keyMeasure flat, 1)
decreasing_by
  have h := categorize_groupsMeasure flat
  rcases Nat.lt_or_ge (groupsMeasure (categorize flat).1) (keyMeasure flat) with hlt | hge
  · exact Prod.Lex.left _ _ hlt
  · have : groupsMeasure (categorize flat).1 = keyMeasure flat := le_antisymm h hge
    rw [this]
    exact Prod.Lex.right _ (by omega)

/-- The prefix-group loop of unflatten_dict (db.py lines 337-354): for each group
in order, recursively unflatten when some suffix still contains the separator,
collapse to None exactly when every value of the resulting sub-structure is None,
and assign result[p]. -/
def applyGroups (gs : List (Key × Flat)) (result : Flat) : Flat :=
  match gs with
  | [] => result
  | (p, nd) :: rest =>
      let v :=
        if nd.any (fun kv => hasSep kv.1) then
          let nr := unflatten_dict nd
          if nr.all (fun kv => isNull kv.2) then Value.vnull else Value.vdict nr
        else
          if nd.all (fun kv => isNull kv.2) then Value.vnull else Value.vdict nd
      applyGroups rest (dictUpdate result p v)
termination_by (groupsMeasure gs, 0)
decreasing_by
  · apply Prod.Lex.left
    simp only [groupsMeasure, List.map_cons, List.sum_cons]
    omega
  · apply Prod.Lex.left
    simp only [groupsMeasure, List.map_cons, List.sum_cons]
    omega
end

theorem unflatten_dict_eq (flat : Flat) :
    unflatten_dict flat = applyGroups (categorize flat).1 (categorize flat).2 := by
  rw [unflatten_dict]

/-- Keys of a flat dict, in order. -/
def dictKeys (d : Flat) : List Key := d.map Prod.fst

/-- Prefixes of a group list, in order. -/
def groupKeys (g : List (Key × Flat)) : List Key := g.map Prod.fst

theorem dictGet_dictUpdate_self (d : Flat) (k : Key) (v : Value) :
    dictGet (dictUpdate d k v) k = some v := by
  induction d with
  | nil => simp [dictUpdate, dictGet]
  | cons kv d ih =>
      obtain ⟨k', v'⟩ := kv
      by_cases h : k' = k
      · simp [dictUpdate, h, dictGet]
      · simp [dictUpdate, h, dictGet, ih]

theorem dictGet_dictUpdate_ne (d : Flat) (k : Key) (v : Value) (k₂ : Key) (h : k ≠ k₂) :
    dictGet (dictUpdate d k v) k₂ = dictGet d k₂ := by
  induction d with
  | nil => simp [dictUpdate, dictGet, h]
  | cons kv d ih =>
      obtain ⟨k', v'⟩ := kv
      by_cases h1 : k' = k
      · subst h1
        simp [dictUpdate, dictGet, h]
      · by_cases h2 : k' = k₂
        · subst h2
          simp [dictUpdate, dictGet, Ne.symm h]
        · simp [dictUpdate, h1, dictGet, h2, ih]

theorem dictKeys_dictUpdate (d : Flat) (k : Key) (v : Value) :
    dictKeys (dictUpdate d k v) =
      if k ∈ dictKeys d then dictKeys d else dictKeys d ++ [k] := by
  induction d with
  | nil => simp [dictUpdate, dictKeys]
  | cons kv d ih =>
      obtain ⟨k', v'⟩ := kv
      by_cases h : k' = k
      · subst h
        simp [dictUpdate, dictKeys]
      · simp only [dictUpdate, if_neg h, dictKeys, List.map_cons, List.mem_cons]
        simp only [dictKeys] at ih
        rw [ih]
        by_cases hm : k ∈ List.map Prod.fst d
        · simp [hm]
        · have hne : ¬(k = k') := fun hh => h hh.symm
          simp [hm, hne]

theorem dictKeys_nodup_dictUpdate (d : Flat) (k : Key) (v : Value)
    (h : (dictKeys d).Nodup) : (dictKeys (dictUpdate d k v)).Nodup := by
  rw [dictKeys_dictUpdate]
  by_cases hm : k ∈ dictKeys d
  · simp [hm, h]
  · simp [hm, List.nodup_append, h, hm]

theorem dictUpdate_append (d : Flat) (k : Key) (v : Value) (h : k ∉ dictKeys d) :
    dictUpdate d k v = d ++ [(k, v)] := by
  induction d with
  | nil => simp [dictUpdate]
  | cons kv d ih =>
      obtain ⟨k', v'⟩ := kv
      simp only [dictKeys, List.map_cons, List.mem_cons, not_or] at h
      have hne : ¬(k' = k) := fun hh => h.1 hh.symm
      simp only [dictUpdate, if_neg hne, List.cons_append, List.cons.injEq, true_and]
      exact ih h.2

theorem groupInsert_forall (P : Flat → Prop) (g : List (Key × Flat)) (p r : Key) (v : Value)
    (hg : ∀ qm ∈ g, P qm.2) (hupd : ∀ m, P m → P (dictUpdate m r v)) (hnew : P [(r, v)]) :
    ∀ qm ∈ groupInsert g p r v, P qm.2 := by
  induction g with
  | nil =>
      intro qm hqm
      simp only [groupInsert, List.mem_singleton] at hqm
      subst hqm
      exact hnew
  | cons q0 g ih =>
      obtain ⟨q, m⟩ := q0
      intro qm hqm
      by_cases h : q = p
      · simp only [groupInsert, if_pos h, List.mem_cons] at hqm
        rcases hqm with hqm | hqm
        · subst hqm
          exact hupd m (hg (q, m) (by simp))
        · exact hg qm (by simp [hqm])
      · simp only [groupInsert, if_neg h, List.mem_cons] at hqm
        rcases hqm with hqm | hqm
        · subst hqm
          exact hg (q, m) (by simp)
        · exact ih (fun x hx => hg x (by simp [hx])) qm hqm

theorem groupKeys_groupInsert (g : List (Key × Flat)) (p r : Key) (v : Value) :
    groupKeys (groupInsert g p r v) =
      if p ∈ groupKeys g then groupKeys g else groupKeys g ++ [p] := by
  induction g with
  | nil => simp [groupInsert, groupKeys]
  | cons q0 g ih =>
      obtain ⟨q, m⟩ := q0
      by_cases h : q = p
      · subst h
        simp [groupInsert, groupKeys]
      · simp only [groupInsert, if_neg h, groupKeys, List.map_cons, List.mem_cons]
        simp only [groupKeys] at ih
        rw [ih]
        by_cases hm : p ∈ List.map Prod.fst g
        · simp [hm]
        · have hne : ¬(p = q) := fun hh => h hh.symm
          simp [hm, hne]

theorem groupKeys_nodup_groupInsert (g : List (Key × Flat)) (p r : Key) (v : Value)
    (h : (groupKeys g).Nodup) : (groupKeys (groupInsert g p r v)).Nodup := by
  rw [groupKeys_groupInsert]
  by_cases hm : p ∈ groupKeys g
  · simp [hm, h]
  · simp [hm, List.nodup_append, h]

theorem categorizeAux_groupKeys_nodup (l : Flat) :
    ∀ g d, (groupKeys g).Nodup → (groupKeys (categorizeAux l g d).1).Nodup := by
  induction l with
  | nil => intro g d h; simpa [categorizeAux] using h
  | cons kv rest ih =>
      intro g d h
      obtain ⟨k, v⟩ := kv
      simp only [categorizeAux]
      cases hbd : breakDot k with
      | some pr =>
          obtain ⟨p, r⟩ := pr
          exact ih _ _ (groupKeys_nodup_groupInsert g p r v h)
      | none => exact ih _ _ h

theorem categorizeAux_inner_nodup (l : Flat) :
    ∀ g d, (∀ qm ∈ g, (dictKeys qm.2).Nodup) →
      ∀ qm ∈ (categorizeAux l g d).1, (dictKeys qm.2).Nodup := by
  induction l with
  | nil => intro g d h; simpa [categorizeAux] using h
  | cons kv rest ih =>
      intro g d h
      obtain ⟨k, v⟩ := kv
      simp only [categorizeAux]
      cases hbd : breakDot k with
      | some pr =>
          obtain ⟨p, r⟩ := pr
          refine ih _ _ ?_
          refine groupInsert_forall (fun m => (dictKeys m).Nodup) g p r v h ?_ ?_
          · intro m hm
            exact dictKeys_nodup_dictUpdate m r v hm
          · simp [dictKeys]
      | none => exact ih _ _ h

theorem categorizeAux_groupKeys_sub (l : Flat) :
    ∀ g d q, q ∈ groupKeys (categorizeAux l g d).1 →
      q ∈ groupKeys g ∨ ∃ kv ∈ l, (breakDot kv.1).map Prod.fst = some q := by
  induction l with
  | nil =>
      intro g d q h
      left
      simpa [categorizeAux] using h
  | cons kv rest ih =>
      intro g d q h
      obtain ⟨k, v⟩ := kv
      simp only [categorizeAux] at h
      cases hbd : breakDot k with
      | some pr =>
          obtain ⟨p, r⟩ := pr
          rw [hbd] at h
          rcases ih _ _ q h with hg | ⟨kv', hkv', hq⟩
          · rw [groupKeys_groupInsert] at hg
            by_cases hm : p ∈ groupKeys g
            · rw [if_pos hm] at hg
              exact Or.inl hg
            · rw [if_neg hm] at hg
              rcases List.mem_append.mp hg with hg | hg
              · exact Or.inl hg
              · right
                refine ⟨(k, v), by simp, ?_⟩
                simp only [List.mem_singleton] at hg
                subst hg
                simp [hbd]
          · exact Or.inr ⟨kv', by simp [hkv'], hq⟩
      | none =>
          rw [hbd] at h
          rcases ih _ _ q h with hg | ⟨kv', hkv', hq⟩
          · exact Or.inl hg
          · exact Or.inr ⟨kv', by simp [hkv'], hq⟩

theorem applyGroups_dictGet_not_mem (gs : List (Key × Flat)) :
    ∀ (res : Flat) (k : Key), k ∉ groupKeys gs →
      dictGet (applyGroups gs res) k = dictGet res k := by
  induction gs with
  | nil => intro res k h; simp [applyGroups]
  | cons pm rest ih =>
      intro res k h
      obtain ⟨p, nd⟩ := pm
      simp only [groupKeys, List.map_cons, List.mem_cons, not_or] at h
      simp only [applyGroups]
      rw [ih _ k h.2]
      exact dictGet_dictUpdate_ne _ _ _ _ (fun hh => h.1 hh.symm)

theorem applyGroups_dictGet_mem (gs : List (Key × Flat)) :
    ∀ (res : Flat) (p : Key) (nd : Flat), (groupKeys gs).Nodup → (p, nd) ∈ gs →
      dictGet (applyGroups gs res) p =
        some (if nd.any (fun kv => hasSep kv.1) then
                (if (unflatten_dict nd).all (fun kv => isNull kv.2) then Value.vnull
                 else Value.vdict (unflatten_dict nd))
              else
                (if nd.all (fun kv => isNull kv.2) then Value.vnull else Value.vdict nd)) := by
  induction gs with
  | nil => intro res p nd _ hmem; simp at hmem
  | cons pm rest ih =>
      intro res p nd hnodup hmem
      obtain ⟨q, m⟩ := pm
      rcases List.mem_cons.mp hmem with heq | hmem'
      · rw [Prod.mk.injEq] at heq
        obtain ⟨hq, hm⟩ := heq
        subst hq; subst hm
        have hnot : p ∉ groupKeys rest := by
          simp only [groupKeys, List.map_cons, List.nodup_cons] at hnodup
          exact hnodup.1
        simp only [applyGroups]
        rw [applyGroups_dictGet_not_mem rest _ p hnot]
        exact dictGet_dictUpdate_self _ _ _
      · have hnodup' : (groupKeys rest).Nodup := by
          simp only [groupKeys, List.map_cons, List.nodup_cons] at hnodup
          exact hnodup.2
        simp only [applyGroups]
        exact ih _ p nd hnodup' hmem'

/-- Helper describing the effect of the direct-key loop on sep-free input. -/
def updFold : Flat → Flat → Flat
  | d, [] => d
  | d, (k, v) :: l => updFold (dictUpdate d k v) l

theorem categorizeAux_sepFree (l : Flat) :
    ∀ g d, (∀ kv ∈ l, hasSep kv.1 = false) → categorizeAux l g d = (g, updFold d l) := by
  induction l with
  | nil => intro g d _; simp [categorizeAux, updFold]
  | cons kv rest ih =>
      intro g d h
      obtain ⟨k, v⟩ := kv
      have hk : hasSep k = false := h (k, v) (by simp)
      have hbd : breakDot k = none := by
        cases hb : breakDot k with
        | none => rfl
        | some pr => rw [hasSep, hb] at hk; simp at hk
      simp only [categorizeAux, hbd, updFold]
      exact ih g (dictUpdate d k v) (fun x hx => h x (by simp [hx]))

theorem updFold_append (l : Flat) :
    ∀ d, (dictKeys l).Nodup → (∀ k ∈ dictKeys l, k ∉ dictKeys d) →
      updFold d l = d ++ l := by
  induction l with
  | nil => intro d _ _; simp [updFold]
  | cons kv rest ih =>
      intro d hnodup hdisj
      obtain ⟨k, v⟩ := kv
      have hkd : k ∉ dictKeys d := hdisj k (by simp [dictKeys])
      have hknodup : k ∉ dictKeys rest := by
        simp only [dictKeys, List.map_cons, List.nodup_cons] at hnodup
        exact hnodup.1
      simp only [updFold, dictUpdate_append d k v hkd]
      rw [ih (d ++ [(k, v)]) ?hn ?hd]
      · simp
      case hn =>
        simp only [dictKeys, List.map_cons, List.nodup_cons] at hnodup
        exact hnodup.2
      case hd =>
        intro k' hk'
        have hd1 : k' ∉ dictKeys d := by
          refine hdisj k' ?_
          simp only [dictKeys, List.map_cons, List.mem_cons]
          right
          exact hk'
        have hd2 : ¬(k' = k) := by
          intro hkk
          subst hkk
          exact hknodup hk'
        simp only [dictKeys, List.map_append, List.map_cons, List.map_nil, List.mem_append,
          List.mem_singleton, not_or]
        exact ⟨hd1, hd2⟩

theorem unflatten_sepFree (nd : Flat)
    (h1 : ∀ kv ∈ nd, hasSep kv.1 = false) (h2 : (dictKeys nd).Nodup) :
    unflatten_dict nd = nd := by
  have hc : categorize nd = ([], nd) := by
    rw [categorize, categorizeAux_sepFree nd [] [] h1,
      updFold_append nd [] h2 (by simp [dictKeys])]
    simp
  rw [unflatten_dict_eq, hc]
  simp [applyGroups]

/-- C2: for every prefix group of the flat row, the unflattened result binds that
prefix to the recursively unflattened sub-structure, collapsed to None exactly
when every value in that sub-structure is None; since the bound value is itself
built from recursive unflattening, a grandchild group collapsing to None
participates in its parent's all-None check, at every depth. -/
theorem C2_unflatten_allnull_collapse (flat : Flat) (p : Key) (nd : Flat)
    (hmem : (p, nd) ∈ (categorize flat).1) :
    dictGet (unflatten_dict flat) p =
      some (if (unflatten_dict nd).all (fun kv => isNull kv.2) then Value.vnull
            else Value.vdict (unflatten_dict nd)) := by
  have hnodupG : (groupKeys (categorize flat).1).Nodup :=
    categorizeAux_groupKeys_nodup flat [] [] (by simp [groupKeys])
  have hinner : (dictKeys nd).Nodup :=
    categorizeAux_inner_nodup flat [] [] (by simp) (p, nd) hmem
  rw [unflatten_dict_eq]
  rw [applyGroups_dictGet_mem (categorize flat).1 (categorize flat).2 p nd hnodupG hmem]
  by_cases hnested : nd.any (fun kv => hasSep kv.1)
  · simp [hnested]
  · have hsf : ∀ kv ∈ nd, hasSep kv.1 = false := by
      intro kv hkv
      rcases Bool.eq_false_or_eq_true (hasSep kv.1) with h | h
      · exact absurd (List.any_eq_true.mpr ⟨kv, hkv, h⟩) hnested
      · exact h
    rw [unflatten_sepFree nd hsf hinner]
    simp [hnested]

def flatC2 : Flat :=
  [("a.b.c".toList, Value.vnull), ("a.e".toList, Value.vnull), ("x".toList, Value.vint 7)]

theorem C2_witness :
    ("a".toList, [("b.c".toList, Value.vnull), ("e".toList, Value.vnull)]) ∈ (categorize flatC2).1
    ∧ dictGet (unflatten_dict flatC2) ("a".toList) =
        some (if (unflatten_dict [("b.c".toList, Value.vnull), ("e".toList, Value.vnull)]).all
                  (fun kv => isNull kv.2) then Value.vnull
              else Value.vdict (unflatten_dict [("b.c".toList, Value.vnull),
                                                ("e".toList, Value.vnull)]))
    ∧ dictGet (unflatten_dict flatC2) ("a".toList) = some Value.vnull := by
  have hmem : ("a".toList, [("b.c".toList, Value.vnull), ("e".toList, Value.vnull)]) ∈
      (categorize flatC2).1 := List.Mem.head _
  refine ⟨hmem, C2_unflatten_allnull_collapse flatC2 _ _ hmem, ?_⟩
  simp [flatC2, unflatten_dict_eq, unflatten_dict, applyGroups, categorize, categorizeAux,
    groupInsert, dictUpdate, dictGet, breakDot, hasSep, isNull]

def flatC10 : Flat := [("a".toList, Value.vint 1), ("a.b".toList, Value.vint 2)]

/-- C10 counterexample: in the row a=1, a.b=2 the separator-free key a does not
keep its value — the prefix group a overwrites it with the nested structure. -/
theorem C10_counterexample :
    ("a".toList, Value.vint 1) ∈ flatC10
    ∧ hasSep ("a".toList) = false
    ∧ dictGet (unflatten_dict flatC10) ("a".toList) ≠ some (Value.vint 1) := by
  refine ⟨List.Mem.head _, by decide, ?_⟩
  have heval : dictGet (unflatten_dict flatC10) ("a".toList) =
      some (Value.vdict [("b".toList, Value.vint 2)]) := by
    simp [flatC10, unflatten_dict_eq, unflatten_dict, applyGroups, categorize, categorizeAux,
      groupInsert, dictUpdate, dictGet, breakDot, hasSep, isNull]
  rw [heval]
  simp

/-- C10 (amended): the result of unflatten_dict is always a mapping, and a
separator-free key that is not also the split prefix of some dotted key keeps
its value unchanged — even when that value and every other value in the row is
None — and the top level never collapses: the result is non-empty whenever a
direct key exists. The un-amended claim fails when a dotted key shares its
prefix with a direct key (see the counterexample). -/
theorem C10_direct_key_preserved (flat : Flat) (k : Key) (v : Value)
    (hnodup : (dictKeys flat).Nodup)
    (hmem : (k, v) ∈ flat)
    (hsep : hasSep k = false)
    (hshadow : ∀ kv ∈ flat, (breakDot kv.1).map Prod.fst ≠ some k) :
    dictGet (unflatten_dict flat) k = some v ∧ unflatten_dict flat ≠ [] := by
  have hnotg : k ∉ groupKeys (categorize flat).1 := by
    intro hk
    rcases categorizeAux_groupKeys_sub flat [] [] k hk with h | ⟨kv, hkv, hbd⟩
    · simp [groupKeys] at h
    · exact hshadow kv hkv hbd
  have hdirect : dictGet (categorize flat).2 k = some v := by
    have main : ∀ (l : Flat) (g : List (Key × Flat)) (d : Flat),
        (k, v) ∈ l → (dictKeys l).Nodup →
        dictGet (categorizeAux l g d).2 k = some v := by
      intro l
      induction l with
      | nil => intro g d hm _; simp at hm
      | cons kv rest ih =>
          intro g d hm hnd
          obtain ⟨k₁, v₁⟩ := kv
          rcases List.mem_cons.mp hm with heq | hmem'
          · rw [Prod.mk.injEq] at heq
            obtain ⟨hk1, hv1⟩ := heq
            subst hk1; subst hv1
            have hbd : breakDot k = none := by
              cases hb : breakDot k with
              | none => rfl
              | some pr => rw [hasSep, hb] at hsep; simp at hsep
            simp only [categorizeAux, hbd]
            have hkrest : k ∉ dictKeys rest := by
              simp only [dictKeys, List.map_cons, List.nodup_cons] at hnd
              exact hnd.1
            have hskip : ∀ (l₂ : Flat) (g₂ : List (Key × Flat)) (d₂ : Flat),
                (∀ kv ∈ l₂, kv.1 ≠ k) →
                dictGet (categorizeAux l₂ g₂ d₂).2 k = dictGet d₂ k := by
              intro l₂
              induction l₂ with
              | nil => intro g₂ d₂ _; simp [categorizeAux]
              | cons kv₂ rest₂ ih₂ =>
                  intro g₂ d₂ hall
                  obtain ⟨k₂, v₂⟩ := kv₂
                  simp only [categorizeAux]
                  cases hb₂ : breakDot k₂ with
                  | some pr₂ =>
                      obtain ⟨p₂, r₂⟩ := pr₂
                      exact ih₂ _ _ (fun x hx => hall x (by simp [hx]))
                  | none =>
                      rw [ih₂ _ _ (fun x hx => hall x (by simp [hx]))]
                      exact dictGet_dictUpdate_ne _ _ _ _ (hall (k₂, v₂) (by simp))
            rw [hskip rest _ _ ?hne]
            · exact dictGet_dictUpdate_self _ _ _
            case hne =>
              intro x hx hxk
              exact hkrest (by simp only [dictKeys, List.mem_map]; exact ⟨x, hx, hxk⟩)
          · have hk1 : ¬(k₁ = k) := by
              intro hkk
              subst hkk
              simp only [dictKeys, List.map_cons, List.nodup_cons] at hnd
              exact hnd.1 (by simp only [dictKeys, List.mem_map]; exact ⟨(k₁, v), hmem', rfl⟩)
            have hnd' : (dictKeys rest).Nodup := by
              simp only [dictKeys, List.map_cons, List.nodup_cons] at hnd
              exact hnd.2
            simp only [categorizeAux]
            cases hb : breakDot k₁ with
            | some pr => exact ih _ _ hmem' hnd'
            | none => exact ih _ _ hmem' hnd'
    exact main flat [] [] hmem hnodup
  have hget : dictGet (unflatten_dict flat) k = some v := by
    rw [unflatten_dict_eq, applyGroups_dictGet_not_mem _ _ _ hnotg]
    exact hdirect
  refine ⟨hget, ?_⟩
  intro hempty
  rw [hempty] at hget
  simp [dictGet] at hget

def flatC10w : Flat := [("a".toList, Value.vnull), ("b.c".toList, Value.vnull)]

theorem C10_witness :
    ((dictKeys flatC10w).Nodup
      ∧ ("a".toList, Value.vnull) ∈ flatC10w
      ∧ hasSep ("a".toList) = false
      ∧ (∀ kv ∈ flatC10w, (breakDot kv.1).map Prod.fst ≠ some ("a".toList)))
    ∧ dictGet (unflatten_dict flatC10w) ("a".toList) = some Value.vnull
    ∧ unflatten_dict flatC10w ≠ [] := by
  have h := C10_direct_key_preserved flatC10w ("a".toList) Value.vnull
    (by decide) (List.Mem.head _) (by decide) (by decide)
  exact ⟨⟨by decide, List.Mem.head _, by decide, by decide⟩, h.1, h.2⟩

def agreeExec : Str → StmtSem Nat := fun s =>
  if isSelect s then ⟨true, [5], -1⟩ else ⟨false, [], 1⟩

theorem C6_witness :
    (∀ s ∈ splitStatements ("select a from t".toList),
        (agreeExec s).returns_rows = isSelect s)
    ∧ (containsTemplateVar ("select a from t".toList) = false →
        splitStatements ("select a from t".toList) = ["select a from t".toList])
    ∧ run_sql_async agreeExec ("select a from t".toList) =
        run_sql agreeExec ("select a from t".toList) := by
  refine ⟨by decide, by decide, ?_⟩
  exact C6_sync_async_agreement agreeExec _ (by decide) (by decide)

/-- Per-attempt behaviour of the repair loop's three stages, indexed by the
attempt number: sql_gen (which may itself raise), db.run_sql (execution), and
_parse_result (materialization). Exceptions are strings carried in Except. The
call-site kwargs are fixed for the whole loop and folded into the environment. -/
structure LoopEnv (α β : Type) where
  gen : Nat → Option String → Option String → Except String String
  runq : Nat → String → Except String α
  parse : Nat → α → Except String β

/-- Python f-string "Execution error: {exec_err}" (query.py lines 223 and 250). -/
def execMsg (e : String) : String := "Execution error: " ++ e

/-- Python f-string "Parsing/Validation error: {parse_err}" (query.py lines 219
and 246). -/
def parseMsg (e : String) : String := "Parsing/Validation error: " ++ e

/-- WrapSqlExecution._execute_sync / _execute_async (query.py lines 202-255):
the for-loop over the attempt budget, instrumented with the number of loop
iterations entered (second component). Each iteration calls sql_gen with the
carried error and previous template (an exception there propagates uncaught),
then run_sql; an execution failure records the raw exception and the formatted
error string and continues, a materialization failure likewise; success returns
the parsed value at once. When the budget is exhausted, the last raw exception
is re-raised, or the generic RuntimeError if no attempt ran. -/
def execLoopT (env : LoopEnv α β) :
    Nat → Nat → Option String → Option String → Option String → Except String β × Nat
  | 0, _, _, _, lastExc =>
      (match lastExc with
       | some e => Except.error e
       | none => Except.error "SQL generation failed without explicit exception", 0)
  | fuel+1, i, err, tmpl, lastExc =>
      match env.gen i err tmpl with
      | Except.error e => (Except.error e, 1)
      | Except.ok t =>
          match env.runq i t with
          | Except.error e =>
              let r := execLoopT env fuel (i+1) (some (execMsg e)) (some t) (some e)
              (r.1, r.2 + 1)
          | Except.ok d =>
              match env.parse i d with
              | Except.ok v => (Except.ok v, 1)
              | Except.error e =>
                  let r := execLoopT env fuel (i+1) (some (parseMsg e)) (some t) (some e)
                  (r.1, r.2 + 1)

/-- Python "self.repair + 1 if isinstance(self.repair, int) and self.repair >= 0
else 1" (query.py lines 206-208 and 234-236); repair is Optional[int]. -/
def attemptsOf : Option Int → Nat
  | some r => if 0 ≤ r then (r + 1).toNat else 1
  | none => 1

/-- The whole repair loop invocation with the configured repair budget. -/
def execute_sync (env : LoopEnv α β) (repair : Option Int) : Except String β × Nat :=
  execLoopT env (attemptsOf repair) 0 none none none

theorem attemptsOf_coe (r : Nat) : attemptsOf (some (r : Int)) = r + 1 := by
  simp only [attemptsOf, if_pos (Int.natCast_nonneg r)]
  omega

theorem execLoopT_count_le (env : LoopEnv α β) :
    ∀ (fuel i : Nat) (err tmpl lastExc : Option String),
      (execLoopT env fuel i err tmpl lastExc).2 ≤ fuel := by
  intro fuel
  induction fuel with
  | zero => intro i err tmpl lastExc; simp [execLoopT]
  | succ fuel ih =>
      intro i err tmpl lastExc
      simp only [execLoopT]
      cases hg : env.gen i err tmpl with
      | error e => simp [hg]
      | ok t =>
          cases hr : env.runq i t with
          | error e =>
              simp only [hg, hr]
              have := ih (i+1) (some (execMsg e)) (some t) (some e)
              omega
          | ok d =>
              cases hp : env.parse i d with
              | ok v => simp [hg, hr, hp]
              | error e =>
                  simp only [hg, hr, hp]
                  have := ih (i+1) (some (parseMsg e)) (some t) (some e)
                  omega

/-- C3: the repair loop makes at most repairBudget + 1 passes; with budget 0
exactly one pass is made and a first-pass failure (execution or materialization)
raises immediately; and a successful pass returns the materialized value at once
with no further passes, whatever budget remains. -/
theorem C3_repair_budget_and_early_return (env : LoopEnv α β) (r : Nat) :
    (execute_sync env (some ((r : Nat) : Int))).2 ≤ r + 1
    ∧ (execute_sync env (some ((0 : Nat) : Int))).2 = 1
    ∧ (∀ t e, env.gen 0 none none = Except.ok t → env.runq 0 t = Except.error e →
        (execute_sync env (some ((0 : Nat) : Int))).1 = Except.error e)
    ∧ (∀ t d e, env.gen 0 none none = Except.ok t → env.runq 0 t = Except.ok d →
        env.parse 0 d = Except.error e →
        (execute_sync env (some ((0 : Nat) : Int))).1 = Except.error e)
    ∧ (∀ fuel i er tm le t d v, env.gen i er tm = Except.ok t →
        env.runq i t = Except.ok d → env.parse i d = Except.ok v →
        execLoopT env (fuel + 1) i er tm le = (Except.ok v, 1)) := by
  have hone : execute_sync env (some ((0 : Nat) : Int)) = execLoopT env 1 0 none none none := by
    rw [execute_sync, attemptsOf_coe]
  refine ⟨?_, ?_, ?_, ?_, ?_⟩
  · rw [execute_sync, attemptsOf_coe]
    exact execLoopT_count_le env (r + 1) 0 none none none
  · rw [hone]
    simp only [execLoopT]
    cases hg : env.gen 0 none none with
    | error e => simp [hg]
    | ok t =>
        cases hr : env.runq 0 t with
        | error e => simp [hg, hr, execLoopT]
        | ok d =>
            cases hp : env.parse 0 d with
            | ok v => simp [hg, hr, hp]
            | error e => simp [hg, hr, hp, execLoopT]
  · intro t e hg hr
    rw [hone]
    simp [execLoopT, hg, hr]
  · intro t d e hg hr hp
    rw [hone]
    simp [execLoopT, hg, hr, hp]
  · intro fuel i er tm le t d v hg hr hp
    simp [execLoopT, hg, hr, hp]

def c3Env : LoopEnv Nat Nat :=
  { gen := fun _ _ _ => Except.ok "G"
    runq := fun _ _ => Except.error "E"
    parse := fun _ d => Except.ok d }

theorem C3_witness :
    (execute_sync c3Env (some ((2 : Nat) : Int))).2 ≤ 2 + 1
    ∧ (execute_sync c3Env (some ((0 : Nat) : Int))).2 = 1
    ∧ (execute_sync c3Env (some ((0 : Nat) : Int))).1 = Except.error "E" := by
  have h2 := C3_repair_budget_and_early_return c3Env 2
  have h0 := C3_repair_budget_and_early_return c3Env 0
  exact ⟨h2.1, h0.2.1, h0.2.2.1 "G" "E" rfl rfl⟩

/-- C9: an exception raised by the Generate stage itself (the sql_gen call sits
outside the try of query.py lines 239-251 and 212-224, identically in the sync
and async variants) propagates at once: the loop result is that error after a
single entered pass, independently of how much attempt budget remains. -/
theorem C9_generation_error_propagates (env : LoopEnv α β) (fuel i : Nat)
    (er tm le : Option String) (ge : String)
    (h : env.gen i er tm = Except.error ge) :
    execLoopT env (fuel + 1) i er tm le = (Except.error ge, 1) := by
  simp [execLoopT, h]

def c9Env : LoopEnv Nat Nat :=
  { gen := fun _ _ _ => Except.error "genfail"
    runq := fun _ _ => Except.ok 0
    parse := fun _ d => Except.ok d }

theorem C9_witness :
    c9Env.gen 0 none none = Except.error "genfail"
    ∧ execLoopT c9Env 5 0 none none none = (Except.error "genfail", 1) := by
  refine ⟨rfl, ?_⟩
  exact C9_generation_error_propagates c9Env 4 0 none none none "genfail" rfl

/-- Loop state carried between attempts: (error, sql_template, last_exc). -/
abbrev LoopSt := Option String × Option String × Option String

def initLoopSt : LoopSt := ((none : Option String), (none : Option String), (none : Option String))

/-- State transformation performed by one failing attempt of the repair loop. -/
def failStep (env : LoopEnv α β) (i : Nat) (st : LoopSt) : LoopSt :=
  match env.gen i st.1 st.2.1 with
  | Except.error _ => st
  | Except.ok t =>
      match env.runq i t with
      | Except.error e => (some (execMsg e), some t, some e)
      | Except.ok d =>
          match env.parse i d with
          | Except.error e => (some (parseMsg e), some t, some e)
          | Except.ok _ => st

/-- The loop state after k failing attempts starting at attempt i. -/
def failTraj (env : LoopEnv α β) : Nat → Nat → LoopSt → LoopSt
  | _, 0, st => st
  | i, k+1, st => failTraj env (i+1) k (failStep env i st)

/-- Attempt i fails: generation succeeds and then execution fails, or execution
succeeds and materialization fails. -/
def attemptFails (env : LoopEnv α β) (i : Nat) (st : LoopSt) : Prop :=
  ∃ t, env.gen i st.1 st.2.1 = Except.ok t ∧
    ((∃ e, env.runq i t = Except.error e) ∨
     (∃ d e, env.runq i t = Except.ok d ∧ env.parse i d = Except.error e))

theorem failTraj_succ (env : LoopEnv α β) :
    ∀ (k i : Nat) (st : LoopSt),
      failTraj env i (k+1) st = failStep env (i+k) (failTraj env i k st) := by
  intro k
  induction k with
  | zero => intro i st; rfl
  | succ k ih =>
      intro i st
      rw [show failTraj env i (k+1+1) st = failTraj env (i+1) (k+1) (failStep env i st) from rfl,
        ih]
      rw [show failTraj env i (k+1) st = failTraj env (i+1) k (failStep env i st) from rfl]
      rw [show (i+1)+k = i+(k+1) from by omega]

theorem execLoopT_all_fail (env : LoopEnv α β) :
    ∀ (k i : Nat) (er tm le : Option String),
      (∀ m, m < k → attemptFails env (i + m) (failTraj env i m (er, tm, le))) →
      execLoopT env k i er tm le =
        (match (failTraj env i k (er, tm, le)).2.2 with
         | some e => Except.error e
         | none => Except.error "SQL generation failed without explicit exception", k) := by
  intro k
  induction k with
  | zero =>
      intro i er tm le _
      rfl
  | succ k ih =>
      intro i er tm le h
      obtain ⟨t, hg0, hfail⟩ := h 0 (by omega)
      have hg : env.gen i er tm = Except.ok t := hg0
      rcases hfail with ⟨e, hr0⟩ | ⟨d, e, hr0, hp0⟩
      · have hr : env.runq i t = Except.error e := hr0
        have hstep : failStep env i (er, tm, le) = (some (execMsg e), some t, some e) := by
          simp [failStep, hg, hr]
        have hshift : ∀ m, m < k →
            attemptFails env ((i+1) + m)
              (failTraj env (i+1) m (some (execMsg e), some t, some e)) := by
          intro m hm
          have hmm := h (m+1) (by omega)
          have harith : i + (m+1) = (i+1) + m := by omega
          rw [harith] at hmm
          have htr : failTraj env i (m+1) (er, tm, le) =
              failTraj env (i+1) m (failStep env i (er, tm, le)) := rfl
          rw [htr, hstep] at hmm
          exact hmm
        have hrec := ih (i+1) (some (execMsg e)) (some t) (some e) hshift
        have htraj : failTraj env i (k+1) (er, tm, le) =
            failTraj env (i+1) k (some (execMsg e), some t, some e) := by
          rw [show failTraj env i (k+1) (er, tm, le) =
              failTraj env (i+1) k (failStep env i (er, tm, le)) from rfl, hstep]
        simp only [execLoopT, hg, hr]
        rw [hrec, htraj]
      · have hr : env.runq i t = Except.ok d := hr0
        have hp : env.parse i d = Except.error e := hp0
        have hstep : failStep env i (er, tm, le) = (some (parseMsg e), some t, some e) := by
          simp [failStep, hg, hr, hp]
        have hshift : ∀ m, m < k →
            attemptFails env ((i+1) + m)
              (failTraj env (i+1) m (some (parseMsg e), some t, some e)) := by
          intro m hm
          have hmm := h (m+1) (by omega)
          have harith : i + (m+1) = (i+1) + m := by omega
          rw [harith] at hmm
          have htr : failTraj env i (m+1) (er, tm, le) =
              failTraj env (i+1) m (failStep env i (er, tm, le)) := rfl
          rw [htr, hstep] at hmm
          exact hmm
        have hrec := ih (i+1) (some (parseMsg e)) (some t) (some e) hshift
        have htraj : failTraj env i (k+1) (er, tm, le) =
            failTraj env (i+1) k (some (parseMsg e), some t, some e) := by
          rw [show failTraj env i (k+1) (er, tm, le) =
              failTraj env (i+1) k (failStep env i (er, tm, le)) from rfl, hstep]
        simp only [execLoopT, hg, hr, hp]
        rw [hrec, htraj]

/-- C4: when every attempt of the budget fails, the loop re-raises the raw error
captured on the final attempt: the execution error if the final attempt failed
at Execute, the materialization error if Execute succeeded and Materialize
failed (query.py lines 238-255). -/
theorem C4_last_error_reraised (env : LoopEnv α β) (r : Nat)
    (hfail : ∀ m, m ≤ r → attemptFails env m (failTraj env 0 m initLoopSt)) :
    (∀ t e, env.gen r (failTraj env 0 r initLoopSt).1
          (failTraj env 0 r initLoopSt).2.1 = Except.ok t →
        env.runq r t = Except.error e →
        (execute_sync env (some ((r : Nat) : Int))).1 = Except.error e)
    ∧ (∀ t d e, env.gen r (failTraj env 0 r initLoopSt).1
          (failTraj env 0 r initLoopSt).2.1 = Except.ok t →
        env.runq r t = Except.ok d → env.parse r d = Except.error e →
        (execute_sync env (some ((r : Nat) : Int))).1 = Except.error e) := by
  have hmain := execLoopT_all_fail env (r+1) 0 none none none
    (fun m hm => by
      have h := hfail m (by omega)
      simpa [initLoopSt] using h)
  have hsync : execute_sync env (some ((r : Nat) : Int)) =
      execLoopT env (r+1) 0 none none none := by
    rw [execute_sync, attemptsOf_coe]
  have hsnoc : failTraj env 0 (r+1) initLoopSt =
      failStep env r (failTraj env 0 r initLoopSt) := by
    have := failTraj_succ env r 0 initLoopSt
    simpa using this
  constructor
  · intro t e hg hr
    have hlast : (failTraj env 0 (r+1) initLoopSt).2.2 = some e := by
      rw [hsnoc]
      simp only [failStep, hg, hr]
    rw [hsync, hmain]
    rw [show failTraj env 0 (r+1) ((none : Option String), (none : Option String),
        (none : Option String)) = failTraj env 0 (r+1) initLoopSt from rfl, hlast]
  · intro t d e hg hr hp
    have hlast : (failTraj env 0 (r+1) initLoopSt).2.2 = some e := by
      rw [hsnoc]
      simp only [failStep, hg, hr, hp]
    rw [hsync, hmain]
    rw [show failTraj env 0 (r+1) ((none : Option String), (none : Option String),
        (none : Option String)) = failTraj env 0 (r+1) initLoopSt from rfl, hlast]

def failEnv : LoopEnv Nat Nat :=
  { gen := fun _ _ _ => Except.ok "T"
    runq := fun _ _ => Except.error "boom"
    parse := fun _ d => Except.ok d }

theorem C4_witness :
    (∀ m, m ≤ 1 → attemptFails failEnv m (failTraj failEnv 0 m initLoopSt))
    ∧ (execute_sync failEnv (some ((1 : Nat) : Int))).1 = Except.error "boom" := by
  have hfail : ∀ m, m ≤ 1 → attemptFails failEnv m (failTraj failEnv 0 m initLoopSt) :=
    fun m _ => ⟨"T", rfl, Or.inl ⟨"boom", rfl⟩⟩
  refine ⟨hfail, ?_⟩
  exact (C4_last_error_reraised failEnv 1 hfail).1 "T" "boom" rfl rfl

/-- The key→text store of SQLTemplateCache (cache.py): one file per key, read by
get, written by set, probed by exists. Modelled as a finite map in insertion
order. -/
abbrev Cache := List (String × String)

/-- SQLTemplateCache.exists (cache.py lines 63-74): the entry's file exists. -/
def cache_exists : Cache → String → Bool
  | [], _ => false
  | (k', _) :: c, k => if k' = k then true else cache_exists c k

/-- SQLTemplateCache.get (cache.py lines 47-61): the stored text, or None. -/
def cache_get : Cache → String → Option String
  | [], _ => none
  | (k', v') :: c, k => if k' = k then some v' else cache_get c k

/-- SQLTemplateCache.set (cache.py lines 35-45): overwrite or create the entry. -/
def cache_set : Cache → String → String → Cache
  | [], k, v => [(k, v)]
  | (k', v') :: c, k, v => if k' = k then (k, v) :: c else (k', v') :: cache_set c k v

/-- Environment of the sql_gen closure (query.py lines 106-117): the truthiness
of the regen flag, and the generator behind prompt_generator.generate_prompt +
sql_generator.generate_sql as a function of the carried error and previous
template (the fixed kwargs are folded in). -/
structure GenEnv where
  regen : Bool
  generated : Option String → Option String → String

/-- sql_gen (query.py lines 106-117): regenerate and overwrite the cache entry
when the regen flag is truthy, or the cache has no entry, or an error is carried
(the carried error strings are never empty, so Option.isSome is their exact
truthiness); otherwise return the cached text and leave the cache untouched. -/
def sql_gen (env : GenEnv) (key : String) (c : Cache) (err : Option String)
    (prevTemplate : Option String) : String × Cache :=
  if env.regen || !cache_exists c key || err.isSome then
    let t := env.generated err prevTemplate
    (t, cache_set c key t)
  else
    ((cache_get c key).getD "", c)

theorem cache_get_cache_set_self (c : Cache) (k v : String) :
    cache_get (cache_set c k v) k = some v := by
  induction c with
  | nil => simp [cache_set, cache_get]
  | cons kv c ih =>
      obtain ⟨k', v'⟩ := kv
      by_cases h : k' = k
      · simp [cache_set, h, cache_get]
      · simp [cache_set, h, cache_get, ih]

theorem cache_get_cache_set_ne (c : Cache) (k v k₂ : String) (h : ¬(k₂ = k)) :
    cache_get (cache_set c k v) k₂ = cache_get c k₂ := by
  have hne : ¬(k = k₂) := fun hh => h hh.symm
  induction c with
  | nil => simp [cache_set, cache_get, hne]
  | cons kv c ih =>
      obtain ⟨k', v'⟩ := kv
      by_cases h1 : k' = k
      · subst h1
        simp [cache_set, cache_get, hne]
      · by_cases h2 : k' = k₂
        · simp [cache_set, h1, cache_get, h2, h]
        · simp [cache_set, h1, cache_get, h2, ih]

theorem cache_exists_get (c : Cache) (k : String) (h : cache_exists c k = true) :
    ∃ v, cache_get c k = some v := by
  induction c with
  | nil => simp [cache_exists] at h
  | cons kv c ih =>
      obtain ⟨k', v'⟩ := kv
      by_cases h1 : k' = k
      · exact ⟨v', by simp [cache_get, h1]⟩
      · simp only [cache_exists, if_neg h1] at h
        obtain ⟨v, hv⟩ := ih h
        exact ⟨v, by simp [cache_get, h1, hv]⟩

/-- C5: a Generate step asks the Generator for fresh text and overwrites the
cache entry exactly when the forced-regeneration flag is truthy, or the cache
has no entry for the key, or an error is carried from a prior attempt; otherwise
the cached text is returned and the cache is completely untouched. Entries of
other keys are never disturbed by regeneration. -/
theorem C5_regeneration_condition (env : GenEnv) (key : String) (c : Cache)
    (err : Option String) (prev : Option String) :
    ((env.regen || !cache_exists c key || err.isSome) = true →
      sql_gen env key c err prev =
        (env.generated err prev, cache_set c key (env.generated err prev))
      ∧ cache_get (sql_gen env key c err prev).2 key = some (env.generated err prev)
      ∧ (∀ k₂, ¬(k₂ = key) →
          cache_get (sql_gen env key c err prev).2 k₂ = cache_get c k₂))
    ∧ ((env.regen || !cache_exists c key || err.isSome) = false →
      env.regen = false ∧ cache_exists c key = true ∧ err = none
      ∧ ∃ v, cache_get c key = some v ∧ sql_gen env key c err prev = (v, c)) := by
  constructor
  · intro h
    have hs : sql_gen env key c err prev =
        (env.generated err prev, cache_set c key (env.generated err prev)) := by
      simp only [sql_gen, h, if_true]
    refine ⟨hs, ?_, ?_⟩
    · rw [hs]
      exact cache_get_cache_set_self c key (env.generated err prev)
    · intro k₂ hk
      rw [hs]
      exact cache_get_cache_set_ne c key (env.generated err prev) k₂ hk
  · intro h
    simp only [Bool.or_eq_false_iff, Bool.not_eq_false'] at h
    obtain ⟨⟨hregen, hexists⟩, herr⟩ := h
    have herrn : err = none := by
      cases err with
      | none => rfl
      | some e => simp at herr
    obtain ⟨v, hv⟩ := cache_exists_get c key hexists
    refine ⟨hregen, hexists, herrn, v, hv, ?_⟩
    simp [sql_gen, hregen, hexists, herrn, hv]

def c5Cache : Cache := [("q.sql", "SELECT 1"), ("other.sql", "SELECT 2")]

def c5Env : GenEnv := { regen := false, generated := fun _ _ => "GEN" }

theorem C5_witness :
    ((c5Env.regen || !cache_exists c5Cache "q.sql" || (none : Option String).isSome) = false)
    ∧ sql_gen c5Env "q.sql" c5Cache none none = ("SELECT 1", c5Cache)
    ∧ ((c5Env.regen || !cache_exists c5Cache "missing.sql"
        || (none : Option String).isSome) = true)
    ∧ cache_get (sql_gen c5Env "missing.sql" c5Cache none none).2 "missing.sql" = some "GEN"
    ∧ cache_get (sql_gen c5Env "missing.sql" c5Cache none none).2 "other.sql" =
        cache_get c5Cache "other.sql" := by
  have hmiss := C5_regeneration_condition c5Env "missing.sql" c5Cache none none
  have hhit := C5_regeneration_condition c5Env "q.sql" c5Cache none none
  obtain ⟨vq, hvq, hq⟩ := (hhit.2 (by decide)).2.2.2
  have hveq : vq = "SELECT 1" := by
    have hc : cache_get c5Cache "q.sql" = some "SELECT 1" := by decide
    rw [hc] at hvq
    exact Option.some_inj.mp hvq.symm
  refine ⟨by decide, ?_, by decide, (hmiss.1 (by decide)).2.1, ?_⟩
  · rw [hq, hveq]
  · exact (hmiss.1 (by decide)).2.2 "other.sql" (by decide)

/-- Raw outcomes reaching _parse_result, classified by the isinstance / hasattr
tests the source applies (query.py lines 119-160): a Python int (returned
verbatim); an object exposing a callable scalar() — some (some n) when
int(obj.scalar()) yields n, some none when it raises ValueError/TypeError, and
none for an object without a usable scalar attribute; a list of rows; a dict.
The classification is disjoint exactly as the isinstance chain is: a Python int
is not a list or dict, a list or dict has no scalar() method. -/
inductive RData where
  | rint (n : Int)
  | robj (scalarFn : Option (Option Int))
  | rlist (rows : List RData)
  | rdict (entries : List (String × RData))

/-- Python dict.get on the mapping outcome. -/
def dget : List (String × RData) → String → Option RData
  | [], _ => none
  | (k', v') :: d, k => if k' = k then some v' else dget d k

/-- Python isinstance(v, int) on an optional lookup result. -/
def intOf : Option RData → Option Int
  | some (RData.rint n) => some n
  | _ => none

/-- The well-known-key scan of query.py lines 144-148: for k in ("result",
"count", "affected", "rowcount"), return the first whose value is an int. -/
def wellKnown (entries : List (String × RData)) : Option Int :=
  match intOf (dget entries "result") with
  | some n => some n
  | none =>
      match intOf (dget entries "count") with
      | some n => some n
      | none =>
          match intOf (dget entries "affected") with
          | some n => some n
          | none => intOf (dget entries "rowcount")

/-- The Count fallback chain of _parse_result (query.py lines 127-153) for a
non-int outcome: scalar() extractor, then list row-count, then well-known dict
key, then single-valued dict coercion, then the default 0. -/
def parseCountChain : RData → Int
  | RData.rint n => n
  | RData.robj sf =>
      match sf with
      | some (some n) => n
      | _ => 0
  | RData.rlist rows => (rows.length : Int)
  | RData.rdict entries =>
      match wellKnown entries with
      | some n => n
      | none =>
          match entries.map (fun kv => kv.2) with
          | [RData.rint n] => n
          | _ => 0

/-- The declared-function facts _parse_result consults: fn_spec.wrapper and
whether fn_spec.return_type is int. For an int-returning declaration (Count
shape) prompt.py lines 86-100 set wrapper = None. -/
structure FnSpecM where
  wrapper : Option String
  retIsInt : Bool

/-- Branch taken by _parse_result, with the list- and first-row-materialization
branches abstracted (they do not participate in the Count chain). -/
inductive POut where
  | plist
  | pint (n : Int)
  | pfirst
  deriving DecidableEq, Repr

/-- Translation of _parse_result (query.py lines 119-160): the wrapper == "list" branch first,
then the verbatim-int branch, then the Count chain when the declared return type
is int, else the first-row branch. -/
def parse_result (spec : FnSpecM) (rd : RData) : POut :=
  if spec.wrapper = some "list" then POut.plist
  else
    match rd with
    | RData.rint n => POut.pint n
    | _ => if spec.retIsInt then POut.pint (parseCountChain rd) else POut.pfirst

/-- C7: for a Count-shaped declaration (int return, so wrapper is none), the
materializer returns an integer outcome verbatim, and otherwise applies exactly
the fallback chain in order: scalar()-like extractor, then length of a list
outcome, then the first of the keys result, count, affected, rowcount holding an
integer in a mapping outcome, then a single-valued mapping's only value when it
is an integer, then the default 0. -/
theorem C7_count_chain (spec : FnSpecM)
    (hw : spec.wrapper = none) (hint : spec.retIsInt = true) :
    (∀ n : Int, parse_result spec (RData.rint n) = POut.pint n)
    ∧ (∀ n : Int, parse_result spec (RData.robj (some (some n))) = POut.pint n)
    ∧ parse_result spec (RData.robj (some none)) = POut.pint 0
    ∧ parse_result spec (RData.robj none) = POut.pint 0
    ∧ (∀ rows, parse_result spec (RData.rlist rows) = POut.pint (rows.length : Int))
    ∧ (∀ entries n, intOf (dget entries "result") = some n →
        parse_result spec (RData.rdict entries) = POut.pint n)
    ∧ (∀ entries n, intOf (dget entries "result") = none →
        intOf (dget entries "count") = some n →
        parse_result spec (RData.rdict entries) = POut.pint n)
    ∧ (∀ entries n, intOf (dget entries "result") = none →
        intOf (dget entries "count") = none →
        intOf (dget entries "affected") = some n →
        parse_result spec (RData.rdict entries) = POut.pint n)
    ∧ (∀ entries n, intOf (dget entries "result") = none →
        intOf (dget entries "count") = none →
        intOf (dget entries "affected") = none →
        intOf (dget entries "rowcount") = some n →
        parse_result spec (RData.rdict entries) = POut.pint n)
    ∧ (∀ entries n, wellKnown entries = none →
        entries.map (fun kv => kv.2) = [RData.rint n] →
        parse_result spec (RData.rdict entries) = POut.pint n)
    ∧ (∀ entries, wellKnown entries = none →
        (∀ n : Int, entries.map (fun kv => kv.2) ≠ [RData.rint n]) →
        parse_result spec (RData.rdict entries) = POut.pint 0) := by
  have hwl : ¬(spec.wrapper = some "list") := by rw [hw]; simp
  refine ⟨?_, ?_, ?_, ?_, ?_, ?_, ?_, ?_, ?_, ?_, ?_⟩
  · intro n
    simp [parse_result, hwl]
  · intro n
    simp [parse_result, hwl, hint, parseCountChain]
  · simp [parse_result, hwl, hint, parseCountChain]
  · simp [parse_result, hwl, hint, parseCountChain]
  · intro rows
    simp [parse_result, hwl, hint, parseCountChain]
  · intro entries n h1
    simp [parse_result, hwl, hint, parseCountChain, wellKnown, h1]
  · intro entries n h1 h2
    simp [parse_result, hwl, hint, parseCountChain, wellKnown, h1, h2]
  · intro entries n h1 h2 h3
    simp [parse_result, hwl, hint, parseCountChain, wellKnown, h1, h2, h3]
  · intro entries n h1 h2 h3 h4
    simp [parse_result, hwl, hint, parseCountChain, wellKnown, h1, h2, h3, h4]
  · intro entries n hwk hsingle
    simp [parse_result, hwl, hint, parseCountChain, hwk, hsingle]
  · intro entries hwk hne
    simp only [parse_result, hwl, if_neg, hint, if_true, parseCountChain, hwk]
    cases hm : entries.map (fun kv => kv.2) with
    | nil => simp
    | cons v rest =>
        cases rest with
        | nil =>
            cases v with
            | rint n => exact absurd hm (hne n)
            | robj sf => simp
            | rlist rows => simp
            | rdict es => simp
        | cons w rest₂ => simp

theorem C7_witness :
    parse_result ⟨none, true⟩ (RData.rint 42) = POut.pint 42
    ∧ intOf (dget [("x", RData.robj none), ("result", RData.rint 5)] "result") = some 5
    ∧ parse_result ⟨none, true⟩
        (RData.rdict [("x", RData.robj none), ("result", RData.rint 5)]) = POut.pint 5 := by
  obtain ⟨h1, h2, h3, h4, h5, h6, hrest⟩ := C7_count_chain ⟨none, true⟩ rfl rfl
  exact ⟨h1 42, rfl, h6 _ 5 rfl⟩

/-- The literal character sequence of the ```sql opening marker. -/
def fenceSql : Str := ['`', '`', '`', 's', 'q', 'l']

/-- The literal character sequence of the ``` marker. -/
def fence : Str := ['`', '`', '`']

/-- Length of the maximal whitespace run at the head (regex \s* greedy). -/
def wsCount : Str → Nat
  | [] => 0
  | c :: cs => if isPySpace c then wsCount cs + 1 else 0

/-- Match attempt of the pattern of gen.py line 60 at one position, with
re.MULTILINE: alternatives tried in order. Alternative 1 matches ```sql plus
trailing whitespace at a line start, alternative 2 matches ``` plus trailing
whitespace at a line start, alternative 3 matches ``` right before a newline or
at the end of the input ($ in MULTILINE). Returns the matched length. -/
def tryMatch (atStart : Bool) (s : Str) : Option Nat :=
  if atStart && List.isPrefixOf fenceSql s then
    some (6 + wsCount (s.drop 6))
  else if atStart && List.isPrefixOf fence s then
    some (3 + wsCount (s.drop 3))
  else if List.isPrefixOf fence s && ((s.drop 3).isEmpty || (s.drop 3).head? == some '\n')
    then some 3
  else none

theorem tryMatch_pos (atStart : Bool) (s : Str) (n : Nat) (h : tryMatch atStart s = some n) :
    0 < n := by
  unfold tryMatch at h
  split at h
  · simp only [Option.some.injEq] at h
    omega
  · split at h
    · simp only [Option.some.injEq] at h
      omega
    · split at h
      · simp only [Option.some.injEq] at h
        omega
      · exact absurd h (by simp)

/-- The left-to-right, non-overlapping substitution scan of re.sub over the
original text (gen.py line 60): at each position try the pattern; on a match,
delete it and resume right after; otherwise keep the character. The line-start
flag tracks whether the previous character of the original text was a newline. -/
def fenceScan (atStart : Bool) (s : Str) : Str :=
  match s with
  | [] => []
  | c :: cs =>
      match h : tryMatch atStart (c :: cs) with
      | some n =>
          fenceScan (((c :: cs).take n).getLast? == some '\n') ((c :: cs).drop n)
      | none => c :: fenceScan (c == '\n') cs
termination_by s.length
decreasing_by
  · have hp := tryMatch_pos _ _ _ h
    simp [List.length_drop]
    omega
  · simp

/-- SQLGenerator.generate_sql post-processing (gen.py lines 57-62): the model
output is stripped, the fence pattern is removed everywhere by re.sub with
re.MULTILINE, and the result is stripped again before being returned (and then
cached by sql_gen). -/
def generate_sql_post (content : Str) : Str :=
  pyStrip (fenceScan true (pyStrip content))

theorem fenceScan_nil (b : Bool) : fenceScan b [] = [] := by
  simp [fenceScan]

theorem fenceScan_cons_none (b : Bool) (c : Char) (cs : Str)
    (h : tryMatch b (c :: cs) = none) :
    fenceScan b (c :: cs) = c :: fenceScan (c == '\n') cs := by
  rw [fenceScan]
  split
  · rename_i n heq
    rw [h] at heq
    cases heq
  · rfl

theorem fenceScan_cons_some (b : Bool) (c : Char) (cs : Str) (n : Nat)
    (h : tryMatch b (c :: cs) = some n) :
    fenceScan b (c :: cs) =
      fenceScan ((((c :: cs).take n).getLast?) == some '\n') ((c :: cs).drop n) := by
  rw [fenceScan]
  split
  · rename_i m heq
    rw [h] at heq
    injection heq with hnm
    rw [hnm]
  · rename_i heq
    rw [h] at heq
    cases heq

theorem tryMatch_none_head (b : Bool) (c : Char) (cs : Str) (h : ¬(c = '`')) :
    tryMatch b (c :: cs) = none := by
  have h1 : ¬('`' = c) := fun hh => h hh.symm
  simp [tryMatch, fenceSql, fence, List.isPrefixOf, h1]

theorem fenceScan_tickfree_append (xs : Str) :
    ∀ b : Bool, (∀ c ∈ xs, ¬(c = '`')) →
      fenceScan b (xs ++ ('\n' :: fence)) = xs ++ ['\n'] := by
  induction xs with
  | nil =>
      intro b _
      rw [List.nil_append,
        fenceScan_cons_none b '\n' fence (tryMatch_none_head b '\n' fence (by decide))]
      have ht : tryMatch (('\n' : Char) == '\n') fence = some 3 := by decide
      rw [show fence = '`' :: ('`' :: ('`' :: ([] : Str))) from rfl] at ht ⊢
      rw [fenceScan_cons_some _ _ _ 3 ht]
      simp [fenceScan_nil]
  | cons c cs ih =>
      intro b hfree
      have hc : ¬(c = '`') := hfree c (by simp)
      rw [List.cons_append,
        fenceScan_cons_none b c _ (tryMatch_none_head b c _ hc),
        ih (c == '\n') (fun x hx => hfree x (by simp [hx]))]
      rfl

theorem wsCount_ws_append (bw : Str) (rest : Str)
    (h : ∀ c ∈ bw, isPySpace c = true) :
    wsCount (bw ++ rest) = bw.length + wsCount rest := by
  induction bw with
  | nil => simp [wsCount]
  | cons c cs ih =>
      have hc := h c (by simp)
      simp only [List.cons_append, wsCount, hc, if_true, List.length_cons, List.append_eq]
      rw [ih (fun x hx => h x (by simp [hx]))]
      omega

theorem drop_wsCount (s : Str) : s.drop (wsCount s) = s.dropWhile isPySpace := by
  induction s with
  | nil => simp [wsCount]
  | cons c cs ih =>
      by_cases hc : isPySpace c
      · simp only [wsCount, hc, if_true, List.drop_succ_cons, List.dropWhile_cons, ih]
      · simp only [wsCount, hc, if_false, List.drop_zero, List.dropWhile_cons]
        simp [hc]

theorem dropWhile_head_false (p : Char → Bool) (l : Str) (c : Char) (cs : Str)
    (h : l.dropWhile p = c :: cs) : p c = false := by
  induction l with
  | nil => simp at h
  | cons a as ih =>
      by_cases ha : p a
      · rw [List.dropWhile_cons, if_pos ha] at h
        exact ih h
      · rw [List.dropWhile_cons, if_neg ha] at h
        injection h with h1 h2
        rw [← h1]
        simpa using ha

theorem dropWhile_eq_self_of_head (p : Char → Bool) (s : Str)
    (h : ∀ c, s.head? = some c → p c = false) : s.dropWhile p = s := by
  cases s with
  | nil => rfl
  | cons c cs =>
      rw [List.dropWhile_cons, if_neg]
      simp [h c rfl]

theorem pyStrip_eq_self (s : Str)
    (h1 : ∀ c, s.head? = some c → isPySpace c = false)
    (h2 : ∀ c, s.getLast? = some c → isPySpace c = false) : pyStrip s = s := by
  rw [pyStrip, dropWhile_eq_self_of_head _ _ h1, dropWhile_eq_self_of_head, List.reverse_reverse]
  intro c hc
  rw [List.head?_reverse] at hc
  exact h2 c hc

theorem dropWhile_append_cases (p : Char → Bool) (l₁ l₂ : Str) :
    (l₁ ++ l₂).dropWhile p =
      if (l₁.dropWhile p).isEmpty then l₂.dropWhile p else l₁.dropWhile p ++ l₂ := by
  induction l₁ with
  | nil => simp
  | cons a as ih =>
      by_cases ha : p a
      · simp [List.dropWhile_cons, ha, ih]
      · simp [List.dropWhile_cons, ha]

theorem fenceScan_fence_any (b : Bool) : fenceScan b fence = [] := by
  have ht : tryMatch b fence = some 3 := by cases b <;> rfl
  rw [show fence = '`' :: ('`' :: ('`' :: ([] : Str))) from rfl] at ht ⊢
  rw [fenceScan_cons_some _ _ _ 3 ht]
  simp [fenceScan_nil]

theorem getLast?_append_cons (l₁ : Str) (a : Char) (l₂ : Str) :
    (l₁ ++ (a :: l₂)).getLast? = (a :: l₂).getLast? := by
  rw [← List.head?_reverse, ← List.head?_reverse, List.reverse_append]
  cases hrev : (a :: l₂).reverse with
  | nil => exact absurd hrev (by simp)
  | cons x xs => simp [hrev]

/-- C8 (amended): the fence removal applies at every line boundary, not only at
the edges of the text: a line-initial three-backtick-sql marker (with its
trailing whitespace including the newline), and every line-initial or line-final
bare marker, are removed wherever they occur. In particular a fenced completion
whose body contains no backtick is reduced exactly to the stripped body. The
un-amended claim ("only leading/trailing fences") fails because interior fence
lines are removed too (see the counterexample). -/
theorem C8_fenced_body_stripped (body : Str) (hb : ∀ c ∈ body, ¬(c = '`')) :
    generate_sql_post (fenceSql ++ ('\n' :: (body ++ ('\n' :: fence)))) = pyStrip body := by
  have hstrip : pyStrip (fenceSql ++ ('\n' :: (body ++ ('\n' :: fence)))) =
      fenceSql ++ ('\n' :: (body ++ ('\n' :: fence))) := by
    apply pyStrip_eq_self
    · intro c hc
      rw [show fenceSql ++ ('\n' :: (body ++ ('\n' :: fence))) =
        '`' :: ('`' :: ('`' :: ('s' :: ('q' :: ('l' :: ('\n' :: (body ++ ('\n' :: fence))))))))
        from rfl] at hc
      rw [List.head?_cons] at hc
      injection hc with hc
      rw [← hc]
      decide
    · intro c hc
      rw [getLast?_append_cons] at hc
      rw [show (('\n' :: (body ++ ('\n' :: fence))) : Str) =
        ('\n' :: body) ++ ('\n' :: fence) from rfl] at hc
      rw [getLast?_append_cons] at hc
      rw [show (('\n' :: fence) : Str).getLast? = some '`' from rfl] at hc
      injection hc with hc
      rw [← hc]
      decide
  rw [generate_sql_post, hstrip]
  have hpm : tryMatch true (fenceSql ++ ('\n' :: (body ++ ('\n' :: fence)))) =
      some (6 + wsCount ('\n' :: (body ++ ('\n' :: fence)))) := rfl
  rw [show fenceSql ++ ('\n' :: (body ++ ('\n' :: fence))) =
    '`' :: ('`' :: ('`' :: ('s' :: ('q' :: ('l' :: ('\n' :: (body ++ ('\n' :: fence))))))))
    from rfl] at hpm ⊢
  rw [fenceScan_cons_some _ _ _ _ hpm]
  have hdrop :
      ('`' :: ('`' :: ('`' :: ('s' :: ('q' :: ('l' :: ('\n' :: (body ++ ('\n' :: fence))))))))).drop
        (6 + wsCount ('\n' :: (body ++ ('\n' :: fence)))) =
      ('\n' :: (body ++ ('\n' :: fence))).dropWhile isPySpace := by
    rw [← List.drop_drop]
    rw [show (('`' :: ('`' :: ('`' :: ('s' :: ('q' :: ('l' :: ('\n' :: (body ++
      ('\n' :: fence))))))))).drop 6) = '\n' :: (body ++ ('\n' :: fence)) from rfl]
    exact drop_wsCount _
  rw [hdrop]
  rw [show (('\n' :: (body ++ ('\n' :: fence))) : Str).dropWhile isPySpace =
    (body ++ ('\n' :: fence)).dropWhile isPySpace from by
      rw [List.dropWhile_cons, if_pos (by decide)]]
  rw [dropWhile_append_cases]
  cases hwb : body.dropWhile isPySpace with
  | nil =>
      rw [if_pos (by simp)]
      rw [show (('\n' :: fence) : Str).dropWhile isPySpace = fence from by
        rw [List.dropWhile_cons, if_pos (by decide)]; rfl]
      rw [fenceScan_fence_any]
      simp only [pyStrip, hwb]
      simp
  | cons c₀ wb' =>
      rw [if_neg (by simp)]
      have hfree : ∀ c ∈ (c₀ :: wb'), ¬(c = '`') := by
        intro c hc
        have hmem : c ∈ body := (List.dropWhile_sublist isPySpace).subset (hwb ▸ hc)
        exact hb c hmem
      rw [fenceScan_tickfree_append (c₀ :: wb') _ hfree]
      have hc₀ : isPySpace c₀ = false := dropWhile_head_false _ body c₀ wb' hwb
      simp only [pyStrip, hwb]
      rw [show ((c₀ :: wb') ++ ['\n'] : Str).dropWhile isPySpace =
        (c₀ :: wb') ++ ['\n'] from by
          rw [List.cons_append, List.dropWhile_cons, if_neg (by simp [hc₀])]]
      rw [show (((c₀ :: wb') ++ ['\n'] : Str)).reverse = '\n' :: (c₀ :: wb').reverse from by
        simp]
      rw [List.dropWhile_cons, if_pos (by decide)]

/-- C8 counterexample: the text a\n```\nb carries no leading or trailing fence
marker (it survives strip unchanged and neither starts nor ends with the
marker), so a transformation stripping only leading/trailing fences would leave
it unchanged; the engine nonetheless removes the interior fence line and returns
a\nb. -/
theorem C8_counterexample :
    pyStrip ("a\n```\nb".toList) = "a\n```\nb".toList
    ∧ List.isPrefixOf fence ("a\n```\nb".toList) = false
    ∧ List.isPrefixOf fence (("a\n```\nb".toList).reverse) = false
    ∧ generate_sql_post ("a\n```\nb".toList) = "a\nb".toList := by
  refine ⟨by decide, by decide, by decide, ?_⟩
  simp [generate_sql_post, pyStrip, fenceScan, tryMatch, wsCount, isPySpace, fenceSql, fence]

theorem C8_witness :
    (∀ c ∈ ("SELECT 1 FROM t".toList), ¬(c = '`'))
    ∧ generate_sql_post
        (fenceSql ++ ('\n' :: ("SELECT 1 FROM t".toList ++ ('\n' :: fence)))) =
        pyStrip ("SELECT 1 FROM t".toList) := by
  exact ⟨by decide, C8_fenced_body_stripped ("SELECT 1 FROM t".toList) (by decide)⟩
